import Mathlib

/-!
# Verification of the StaticVec fixed-capacity vector

Shallow embedding of the `StaticVec` crate (src/src/lib.rs and src/src/iterators.rs).

The Rust container is `struct StaticVec<T, const N: usize> { data: [MaybeUninit<T>; N],
length: usize }`.  We model a `MaybeUninit<T>` cell as `Option α`: `none` stands for an
uninitialized / logically-vacant slot, `some x` for a slot holding the live value `x`.
A read of a vacant slot (which in Rust is undefined behaviour) therefore yields `none`
in the model.  Moving a value out of a slot (`ptr::read` followed by giving up
ownership, or a `memmove` away from the slot) leaves the slot logically vacant, which
the model renders by storing `none` there.

Functions that `assert!` in Rust are modelled as `Option`-returning functions: `none`
models the panic.  In every such function the test is performed before any new state is
built, mirroring the source where the `assert!` precedes all mutation.

Pointer arithmetic (`p.add i`, `copy_to`, `copy_to_nonoverlapping`) is modelled by
index arithmetic on the slot list; the block copies of `remove`, `insert`, `drain` and
the drain-iterator drop glue are rendered pointwise with `List.ofFn`.
-/

set_option autoImplicit false

namespace StaticVecModel

variable {α : Type} {N : ℕ}

/-- Model of one `MaybeUninit<T>` storage cell: `none` = uninitialized bytes. -/
abbrev Slot (α : Type) := Option α

/-- Embedding of `StaticVec<T, N>` (lib.rs lines 19–22): a fixed array of `N`
possibly-uninitialized slots plus a length counter.  Well-formed values have
`data.length = N`; that fact is carried as a hypothesis where needed. -/
structure StaticVec (α : Type) (N : ℕ) where
  data : List (Slot α)
  length : ℕ
deriving DecidableEq

/-- Reading the slot at index `i` (a `*p` of `self.as_ptr().add(i)`).
Out-of-array reads also yield `none`. -/
def slot (v : StaticVec α N) (i : ℕ) : Slot α :=
  v.data.getD i none

/-- `StaticVec::new` (lib.rs 41–49): a fresh fully-uninitialized array, length 0. -/
def new : StaticVec α N :=
  ⟨List.replicate N none, 0⟩

/-- `StaticVec::new_from_slice` (lib.rs 56–69): copies the first
`min(values.len(), N)` elements of the slice into a fresh uninitialized array and
sets the length to that count. -/
def new_from_slice (values : List α) : StaticVec α N :=
  let fill_length := min values.length N
  ⟨List.ofFn (fun i : Fin N => if i.val < fill_length then values[i.val]? else none),
   fill_length⟩

/-- `StaticVec::filled_with` (lib.rs 75–86): writes the initializer's value into every
slot and sets the length to `N`.  The Rust initializer is a nullary function; in the
pure model it is a single value. -/
def filled_with (initializer : α) : StaticVec α N :=
  ⟨List.ofFn (fun _ : Fin N => some initializer), N⟩

/-- `StaticVec::push` (lib.rs 166–170): asserts `length < N` (the `none` branch models
the panic, which happens before any mutation), then writes into slot `length` and
increments `length`. -/
def push (v : StaticVec α N) (value : α) : Option (StaticVec α N) :=
  if v.length < N then
    some ⟨v.data.set v.length (some value), v.length + 1⟩
  else none

/-- `StaticVec::pop` (lib.rs 175–182): returns `none` (Rust `None`) when empty;
otherwise decrements the length and reads the value out of the now-vacant slot.
The moved-out slot is rendered vacant. -/
def pop (v : StaticVec α N) : Option (Slot α) × StaticVec α N :=
  if v.length = 0 then (none, v)
  else
    (some (slot v (v.length - 1)),
     ⟨v.data.set (v.length - 1) none, v.length - 1⟩)

/-- `StaticVec::push_unchecked` (lib.rs 187–190): the write of `push` without the
capacity assertion. -/
def push_unchecked (v : StaticVec α N) (value : α) : StaticVec α N :=
  ⟨v.data.set v.length (some value), v.length + 1⟩

/-- `StaticVec::remove` (lib.rs 204–213): asserts `index < length`; reads the value at
`index`, shifts the occupied slots `(index, length)` one place left
(`p.offset(1).copy_to(p, length - index - 1)`), leaves the moved-from last occupied
slot vacant, and decrements the length. -/
def remove (v : StaticVec α N) (index : ℕ) : Option (Slot α × StaticVec α N) :=
  if index < v.length then
    some (slot v index,
      ⟨List.ofFn (fun i : Fin N =>
          if i.val < index then slot v i.val
          else if i.val + 1 < v.length then slot v (i.val + 1)
          else if i.val < v.length then none
          else slot v i.val),
       v.length - 1⟩)
  else none

/-- `StaticVec::insert` (lib.rs 231–242): asserts `length < N && index ≤ length`;
shifts the occupied slots `[index, length)` one place right
(`p.copy_to(p.offset(1), length - index)`), writes the value at `index`, increments
the length. -/
def insert (v : StaticVec α N) (index : ℕ) (value : α) : Option (StaticVec α N) :=
  if v.length < N ∧ index ≤ v.length then
    some ⟨List.ofFn (fun i : Fin N =>
        if i.val < index then slot v i.val
        else if i.val = index then some value
        else if i.val ≤ v.length then slot v (i.val - 1)
        else slot v i.val),
      v.length + 1⟩
  else none

/-- `StaticVec::clear` (lib.rs 246–251): drops the occupied slots `[0, length)`
(leaving them vacant) and resets the length to 0. -/
def clear (v : StaticVec α N) : StaticVec α N :=
  ⟨List.ofFn (fun i : Fin N => if i.val < v.length then none else slot v i.val), 0⟩

/-- The `while self.length + added_length > N { added_length -= 1 }` loop of
`extend_from_slice` (lib.rs 336–339), recursing on `added_length`. -/
def extendAdded (len cap : ℕ) : ℕ → ℕ
  | 0 => 0
  | a + 1 => if len + (a + 1) > cap then extendAdded len cap a else a + 1

/-- `StaticVec::extend_from_slice` (lib.rs 334–346): shrinks the added count until it
fits, then copies `other[0 .. added_length)` to the slots starting at `length` and
adds `added_length` to the length. -/
def extend_from_slice (v : StaticVec α N) (other : List α) : StaticVec α N :=
  let added_length := extendAdded v.length N other.length
  ⟨List.ofFn (fun i : Fin N =>
      if i.val < v.length then slot v i.val
      else if i.val < v.length + added_length then other[i.val - v.length]?
      else slot v i.val),
   v.length + added_length⟩

/-- Rust `Bound<&usize>` as consumed by `drain` (lib.rs 354–363). -/
inductive RBound where
  | included : ℕ → RBound
  | excluded : ℕ → RBound
  | unbounded : RBound
deriving DecidableEq

/-- Resolution of `range.start_bound()` (lib.rs 354–358). -/
def resolveStart : RBound → ℕ
  | .included idx => idx
  | .excluded idx => idx + 1
  | .unbounded => 0

/-- Resolution of `range.end_bound()` (lib.rs 359–363). -/
def resolveEnd (b : RBound) (length : ℕ) : ℕ :=
  match b with
  | .included idx => idx + 1
  | .excluded idx => idx
  | .unbounded => length

/-- `StaticVec::drain` (lib.rs 350–379): resolves the bounds, asserts
`start ≤ end && end ≤ length` (the `none` branch models the panic, which precedes all
mutation), then copies the removed range `[start, end)` into a fresh StaticVec,
relocates the tail `[end, length)` to begin at `start` (`copy_to`, leaving the
moved-from slots vacant), and subtracts the removed count from the length.
Returns `(removed, remaining)`. -/
def drain (v : StaticVec α N) (rstart rend : RBound) :
    Option (StaticVec α N × StaticVec α N) :=
  let start := resolveStart rstart
  let e := resolveEnd rend v.length
  if start ≤ e ∧ e ≤ v.length then
    let resLength := e - start
    some
      (⟨List.ofFn (fun i : Fin N =>
          if i.val < resLength then slot v (start + i.val) else none),
        resLength⟩,
       ⟨List.ofFn (fun i : Fin N =>
          if i.val < start then slot v i.val
          else if i.val < start + (v.length - e) then slot v (e + (i.val - start))
          else if i.val < v.length then none
          else slot v i.val),
        v.length - resLength⟩)
  else none

/-- The loop body of `FromIterator::from_iter` (lib.rs 476–488): push each value
while not full, stop at the first value that does not fit. -/
def fromIterLoop (res : StaticVec α N) : List α → StaticVec α N
  | [] => res
  | value :: rest =>
    if res.length < N then fromIterLoop (push_unchecked res value) rest else res

/-- `FromIterator::from_iter` for `StaticVec` (lib.rs 476–488), the iterator being
modelled as the list of values it yields. -/
def from_iter (iter : List α) : StaticVec α N :=
  fromIterLoop new iter

/-- `StaticVec::as_slice` (lib.rs 151–153): the live values of the occupied area
`[0, length)` (vacant slots, impossible in well-formed states, are skipped). -/
def as_slice (v : StaticVec α N) : List α :=
  (v.data.take v.length).reduceOption

/-- `StaticVec::sort` (lib.rs 256–259): stable in-place sort of the occupied area
`[0, length)`.  The standard library's stable slice sort is external to this crate;
it is modelled by `List.insertionSort` (also stable), applied to the live prefix.
Slots at and beyond `length` are untouched. -/
def sort [LinearOrder α] (v : StaticVec α N) : StaticVec α N :=
  ⟨(((v.data.take v.length).reduceOption.insertionSort (· ≤ ·)).map some)
      ++ v.data.drop v.length,
   v.length⟩

/-- `StaticVec::sort_unstable` (lib.rs 264–267): unstable in-place sort of the
occupied area.  The std unstable slice sort is external; its contract (a sorted
permutation of the input) is modelled by the same sorting function. -/
def sort_unstable [LinearOrder α] (v : StaticVec α N) : StaticVec α N :=
  sort v

/-- `StaticVec::sorted` (lib.rs 280–291): builds a fresh StaticVec, sets its length to
the receiver's, copies the receiver's occupied slots into it, sorts the copy and
returns it.  The receiver (taken by `&mut self` but never written through) is returned
as the second component to express the final receiver state. -/
def sorted [LinearOrder α] (v : StaticVec α N) : StaticVec α N × StaticVec α N :=
  let res : StaticVec α N :=
    ⟨List.ofFn (fun i : Fin N => if i.val < v.length then slot v i.val else none),
     v.length⟩
  (sort res, v)

/-- `StaticVec::sorted_unstable` (lib.rs 298–309): as `sorted`, with the unstable
sort. -/
def sorted_unstable [LinearOrder α] (v : StaticVec α N) : StaticVec α N × StaticVec α N :=
  let res : StaticVec α N :=
    ⟨List.ofFn (fun i : Fin N => if i.val < v.length then slot v i.val else none),
     v.length⟩
  (sort_unstable res, v)

/-- `StaticVec::reversed` (lib.rs 315–327): builds a fresh StaticVec, sets its length
to the receiver's, and fills its leading slots with the receiver's occupied area in
reverse order.  The body of the copy is `utils::reverse_copy(first, last, result)`.
Modelled from the spec: `utils.rs` is not under `src/` (lib.rs line 14 declares
`mod utils` but the file is absent); per the spec, `reversed` "returns a separate,
reversed StaticVec of the contents of the inhabited area without modifying the
original data", so `reverse_copy` writes `[first, last)` reversed into `result`.
The untouched receiver is returned as the second component. -/
def reversed (v : StaticVec α N) : StaticVec α N × StaticVec α N :=
  let res : StaticVec α N :=
    ⟨List.ofFn (fun i : Fin N =>
        if i.val < v.length then slot v (v.length - 1 - i.val) else none),
     v.length⟩
  (res, v)

/-!
## The pointer-based borrowing iterators of lib.rs

`StaticVecIterConst` / `StaticVecIterMut` (lib.rs 25–36) hold `start` and `end`
pointers into the vec's slot array.  Pointers are modelled as indices from the base of
the array, together with a snapshot of the array the pointers point into (legitimate
for the borrowing iterator: the borrow freezes the vec).  Dereferencing a pointer at
index `i` yields the content of slot `i`; dereferencing a vacant (uninitialized) slot
yields `none`, standing for Rust's undefined behaviour on such a read.
-/

/-- `StaticVecIterConst` (lib.rs 25–29). `stop` models the source's `end` field
(`end` is a Lean keyword). -/
structure IterConst (α : Type) where
  start : ℕ
  stop : ℕ
  data : List (Slot α)
deriving DecidableEq

/-- `StaticVecIterMut` (lib.rs 32–36): identical bookkeeping, exclusive borrow. -/
structure IterMut (α : Type) where
  start : ℕ
  stop : ℕ
  data : List (Slot α)
deriving DecidableEq

/-- `StaticVec::iter` (lib.rs 383–399): `start = as_ptr()`, `end = as_ptr() + length`
when the length is positive, both at the base otherwise. -/
def iter (v : StaticVec α N) : IterConst α :=
  if v.length > 0 then ⟨0, v.length, v.data⟩ else ⟨0, 0, v.data⟩

/-- `StaticVec::iter_mut` (lib.rs 403–419). -/
def iter_mut (v : StaticVec α N) : IterMut α :=
  if v.length > 0 then ⟨0, v.length, v.data⟩ else ⟨0, 0, v.data⟩

/-- `Iterator::next` for `StaticVecIterConst` (lib.rs 496–506): if `start < end`,
yield the value behind `start` and advance `start`; otherwise `None`. -/
def IterConst.next (it : IterConst α) : Option (Slot α) × IterConst α :=
  if it.start < it.stop then
    (some (it.data.getD it.start none), { it with start := it.start + 1 })
  else (none, it)

/-- `DoubleEndedIterator::next_back` for `StaticVecIterConst` (lib.rs 518–528),
translated exactly: if `end > start`, yield the value behind `end` — the pointer is
dereferenced BEFORE being decremented — then decrement `end`; otherwise `None`. -/
def IterConst.nextBack (it : IterConst α) : Option (Slot α) × IterConst α :=
  if it.stop > it.start then
    (some (it.data.getD it.stop none), { it with stop := it.stop - 1 })
  else (none, it)

/-- `Iterator::next` for `StaticVecIterMut` (lib.rs 538–548): same bookkeeping as the
const iterator. -/
def IterMut.next (it : IterMut α) : Option (Slot α) × IterMut α :=
  if it.start < it.stop then
    (some (it.data.getD it.start none), { it with start := it.start + 1 })
  else (none, it)

/-- `DoubleEndedIterator::next_back` for `StaticVecIterMut` (lib.rs 560–570):
dereferences `end` before decrementing it, exactly as the const version. -/
def IterMut.nextBack (it : IterMut α) : Option (Slot α) × IterMut α :=
  if it.stop > it.start then
    (some (it.data.getD it.stop none), { it with stop := it.stop - 1 })
  else (none, it)

/-!
## The owning iterator of iterators.rs

`StaticVecIntoIter` (iterators.rs 30–34) owns the moved-in backing array
(`data: MaybeUninit<[T; N]>`) and walks it with `start`/`end` indices.  The array is
modelled as the list of the bit-level contents of all `N` cells; only the cells in
`[start, end)` are owned/live, and the code never touches cells outside that range.
-/

/-- `StaticVecIntoIter` (iterators.rs 30–34). `stop` models the `end` field. -/
structure IntoIter (α : Type) (N : ℕ) where
  start : ℕ
  stop : ℕ
  data : List α
deriving DecidableEq

/-- `Iterator::next` for `StaticVecIntoIter` (iterators.rs 245–254): if
`end - start` is zero, `None`; otherwise read the element out at `start` and advance
`start`. -/
def IntoIter.next [Inhabited α] (it : IntoIter α N) : Option α × IntoIter α N :=
  match it.stop - it.start with
  | 0 => (none, it)
  | _ + 1 => (some (it.data.getD it.start default), { it with start := it.start + 1 })

/-- `DoubleEndedIterator::next_back` for `StaticVecIntoIter` (iterators.rs 265–273):
if `end - start` is zero, `None`; otherwise decrement `end` and read the element out
at the new `end`. -/
def IntoIter.nextBack [Inhabited α] (it : IntoIter α N) : Option α × IntoIter α N :=
  match it.stop - it.start with
  | 0 => (none, it)
  | _ + 1 => (some (it.data.getD (it.stop - 1) default), { it with stop := it.stop - 1 })

/-- `Drop for StaticVecIntoIter` (iterators.rs 302–316): `drop_in_place` of the slice
of the `end - start` cells starting at `start` — each element of that slice is dropped
once, in order, and no other cell is touched.  The model returns the list of dropped
values. -/
def IntoIter.droppedOnDrop (it : IntoIter α N) : List α :=
  (it.data.drop it.start).take (it.stop - it.start)

/-- A direction of consumption of a double-ended iterator: a call to `next` (`fwd`)
or to `next_back` (`bwd`). -/
inductive Dir where
  | fwd
  | bwd
deriving DecidableEq

/-- Run a sequence of `next` / `next_back` calls against a `StaticVecIntoIter`,
collecting the values yielded forward (in call order), the values yielded backward
(in call order), and the final iterator state. -/
def runOps [Inhabited α] (it : IntoIter α N) : List Dir → List α × List α × IntoIter α N
  | [] => ([], [], it)
  | .fwd :: rest =>
    let s := it.next
    let r := runOps s.2 rest
    (s.1.toList ++ r.1, r.2.1, r.2.2)
  | .bwd :: rest =>
    let s := it.nextBack
    let r := runOps s.2 rest
    (r.1, s.1.toList ++ r.2.1, r.2.2)

/-!
## The drain iterator of iterators.rs

`StaticVecDrain` (iterators.rs 41–46) holds: `start` — the index where the
container's tail segment begins (the resolved range end); `length` — the tail
segment's length; `iter` — a `StaticVecIterConst` cursor over the removed range
(the later crate version's const iterator wraps `core::slice::Iter`, whose
`next`/`next_back` yield the first / last remaining element); and `vec` — a raw
back-pointer to the drained StaticVec.  The cursor is modelled as a pair of indices
`iterLo ≤ iterHi` into the vec's slot array.
-/

/-- `StaticVecDrain` (iterators.rs 41–46). -/
structure Drain (α : Type) (N : ℕ) where
  start : ℕ
  length : ℕ
  iterLo : ℕ
  iterHi : ℕ
  vec : StaticVec α N
deriving DecidableEq

/-- `Iterator::next` for `StaticVecDrain` (iterators.rs 331–336): `iter.next()` (a
`core::slice::Iter`: yield the element at the low cursor and advance it) followed by
`ptr::read` of the yielded reference. -/
def Drain.next (d : Drain α N) : Option (Slot α) × Drain α N :=
  if d.iterLo < d.iterHi then
    (some (slot d.vec d.iterLo), { d with iterLo := d.iterLo + 1 })
  else (none, d)

/-- `DoubleEndedIterator::next_back` for `StaticVecDrain` (iterators.rs 346–351):
`iter.next_back()` (yield the element before the high cursor and retreat it) followed
by `ptr::read`. -/
def Drain.nextBack (d : Drain α N) : Option (Slot α) × Drain α N :=
  if d.iterLo < d.iterHi then
    (some (slot d.vec (d.iterHi - 1)), { d with iterHi := d.iterHi - 1 })
  else (none, d)

/-- `Drop for StaticVecDrain` (iterators.rs 380–399): first `while let Some(_) =
self.next() {}` reads out (drops) every remaining element of the removed range, i.e.
the slots `[iterLo, iterHi)`; then, if the tail segment is non-empty, block-copies the
`self.length` slots starting at `tail = self.start` down to `start = vec.length`
(leaving the moved-from, not-overwritten slots vacant) and sets the vec's length to
`start + self.length`.  Returns the list of dropped values and the final vec. -/
def Drain.dropImpl (d : Drain α N) : List (Slot α) × StaticVec α N :=
  let dropped := (List.range (d.iterHi - d.iterLo)).map (fun k => slot d.vec (d.iterLo + k))
  let total_length := d.length
  if total_length > 0 then
    let start := d.vec.length
    let tail := d.start
    (dropped,
     ⟨List.ofFn (fun i : Fin N =>
        if i.val < start then slot d.vec i.val
        else if i.val < start + total_length then slot d.vec (tail + (i.val - start))
        else if i.val < tail + total_length then none
        else slot d.vec i.val),
      start + total_length⟩)
  else (dropped, d.vec)

/-- Modelled from the spec: `StaticVec::drain_iter`, the constructor of
`StaticVecDrain`, is not under `src/` (only the iterator type and its impls in
iterators.rs are; the tests call it).  Per the spec (§3, §4.4): the call resolves the
range to `[a, b)`, panics on malformed bounds, truncates the container's length to the
range start `a` up front, and hands out a drain whose cursor covers the removed range
`[a, b)`, whose `start` field is the tail's first index `b` and whose `length` field
is the tail length `original_length - b`. -/
def drain_iter (v : StaticVec α N) (a b : ℕ) : Option (Drain α N) :=
  if a ≤ b ∧ b ≤ v.length then
    some ⟨b, v.length - b, a, b, ⟨v.data, a⟩⟩
  else none

/-!
## Invariant and reachability
-/

/-- The representation invariant of the container (spec I1 and I2): the backing array
has exactly `N` cells, `0 ≤ length ≤ N`, and a slot is live exactly when its index is
below `length`. -/
def Inv (v : StaticVec α N) : Prop :=
  v.data.length = N ∧ v.length ≤ N ∧
    ∀ i : ℕ, i < N → ((slot v i).isSome ↔ i < v.length)

instance (v : StaticVec α N) : Decidable (Inv v) := by
  unfold Inv; infer_instance

/-- The states reachable from the constructors `new`, `new_from_slice`,
`filled_with`, `from_iter` through any sequence of the safe public operations
`push`, `pop`, `insert`, `remove`, `extend_from_slice`, `drain`, `clear`.
Operations that panic (return `none`) produce no new observable state, so only
their successful outcomes step. -/
inductive Reachable : StaticVec α N → Prop where
  | new : Reachable new
  | new_from_slice (values : List α) : Reachable (new_from_slice values)
  | filled_with (x : α) : Reachable (filled_with x)
  | from_iter (l : List α) : Reachable (from_iter l)
  | push (v : StaticVec α N) (x : α) (v' : StaticVec α N) :
      Reachable v → push v x = some v' → Reachable v'
  | pop (v : StaticVec α N) : Reachable v → Reachable (pop v).2
  | insert (v : StaticVec α N) (i : ℕ) (x : α) (v' : StaticVec α N) :
      Reachable v → insert v i x = some v' → Reachable v'
  | remove (v : StaticVec α N) (i : ℕ) (r : Slot α × StaticVec α N) :
      Reachable v → remove v i = some r → Reachable r.2
  | extend_from_slice (v : StaticVec α N) (other : List α) :
      Reachable v → Reachable (extend_from_slice v other)
  | drain_self (v : StaticVec α N) (b1 b2 : RBound) (r : StaticVec α N × StaticVec α N) :
      Reachable v → drain v b1 b2 = some r → Reachable r.2
  | drain_res (v : StaticVec α N) (b1 b2 : RBound) (r : StaticVec α N × StaticVec α N) :
      Reachable v → drain v b1 b2 = some r → Reachable r.1
  | clear (v : StaticVec α N) : Reachable v → Reachable (clear v)

/-- The sub-list of `d` at indices `[a, b)`. -/
def listSlice (d : List α) (a b : ℕ) : List α :=
  (d.drop a).take (b - a)

/-!
## Basic slot lemmas
-/

lemma slot_ofFn (f : Fin N → Slot α) (len i : ℕ) :
    slot (⟨List.ofFn f, len⟩ : StaticVec α N) i =
      if h : i < N then f ⟨i, h⟩ else none := by
  simp only [slot, List.getD_eq_getElem?_getD, List.getElem?_ofFn, List.ofFnNthVal]
  split <;> simp

lemma slot_set (d : List (Slot α)) (len j : ℕ) (y : Slot α) (i : ℕ) :
    slot (⟨d.set j y, len⟩ : StaticVec α N) i =
      if j = i ∧ j < d.length then y else slot (⟨d, len⟩ : StaticVec α N) i := by
  simp only [slot, List.getD_eq_getElem?_getD, List.getElem?_set]
  by_cases h : j = i
  · subst h
    by_cases h2 : j < d.length
    · simp [h2]
    · simp [h2, List.getElem?_eq_none (Nat.le_of_not_lt h2)]
  · simp [h]

lemma slot_eq_none_of_le (v : StaticVec α N) (i : ℕ) (h : v.data.length ≤ i) :
    slot v i = none := by
  simp [slot, List.getD_eq_getElem?_getD, List.getElem?_eq_none h]

lemma slot_ofFn' (f : ℕ → Slot α) (len i : ℕ) :
    slot (⟨List.ofFn (fun j : Fin N => f j.val), len⟩ : StaticVec α N) i =
      if i < N then f i else none := by
  rw [slot_ofFn]
  by_cases h : i < N <;> simp [h]

/-!
## C3: the concrete remove / insert / drain scenario
-/

/-- C3: for a StaticVec of capacity 5 holding `[1,2,3,4,5]`, `remove 1` returns `2`
and leaves `[1,3,4,5]`; `insert 1 9` on that result leaves `[1,9,3,4,5]`; and
`drain (1..3)` on `[1,9,3,4,5]` returns a StaticVec containing `[9,3]` and leaves the
source contents `[1,4,5]`. -/
theorem claim_C3_remove_insert_drain_scenario :
    ((remove (new_from_slice [1,2,3,4,5] : StaticVec ℕ 5) 1).map
        (fun r => (r.1, as_slice r.2, r.2.length)) = some (some 2, [1,3,4,5], 4)) ∧
    (((remove (new_from_slice [1,2,3,4,5] : StaticVec ℕ 5) 1).bind
        (fun r => insert r.2 1 9)).map (fun w => (as_slice w, w.length))
      = some ([1,9,3,4,5], 5)) ∧
    ((((remove (new_from_slice [1,2,3,4,5] : StaticVec ℕ 5) 1).bind
        (fun r => insert r.2 1 9)).bind
        (fun w => drain w (.included 1) (.excluded 3))).map
        (fun p => (as_slice p.1, p.1.length, as_slice p.2, p.2.length))
      = some ([9,3], 2, [1,4,5], 3)) := by
  decide

/-!
## C2: backward traversal of the lib.rs borrowing iterators

The claim states that `next_back` on a non-exhausted iterator yields the element at
the position immediately before `end` (so the first `next_back` yields the last
occupied element).  The code (lib.rs 518–528 and 560–570) instead dereferences the
`end` pointer BEFORE decrementing it, so the first `next_back` reads the slot one past
the last occupied element — an uninitialized slot (when `length = N`, a position past
the backing array itself).  The repository's own test (test/test_staticvec.rs, `iter`
test) asserts that the first `next_back` on `[1,2,3,4,5]` yields `5`, and the crate's
later const iterator (iterators.rs 90–95, wrapping `core::slice::Iter`) does yield the
element before `end`; the lib.rs code is an off-by-one slip. -/

/-- C2 (evaluation of the code at the failing input): on a capacity-4 StaticVec
holding `[10, 20, 30]`, the first `next_back` of both the const and the mutable
iterator yields the content of the vacant slot at index 3 (= `end`), not the last
occupied element `30` which sits immediately before `end` at index 2, and then
retreats `end` to 2. -/
theorem claim_C2_next_back_reads_slot_at_end :
    ((iter (new_from_slice [10,20,30] : StaticVec ℕ 4)).nextBack.1 = some none) ∧
    (slot (new_from_slice [10,20,30] : StaticVec ℕ 4)
        ((iter (new_from_slice [10,20,30] : StaticVec ℕ 4)).stop - 1) = some 30) ∧
    ((iter (new_from_slice [10,20,30] : StaticVec ℕ 4)).nextBack.2.stop = 2) ∧
    ((iter_mut (new_from_slice [10,20,30] : StaticVec ℕ 4)).nextBack.1 = some none) := by
  decide

/-!
## C10: the copying variants do not touch the receiver
-/

/-- C10: `sorted`, `sorted_unstable` and `reversed` leave the receiver completely
unchanged (the final receiver state equals the initial one, hence its length and every
occupied slot are unchanged), and the returned container has the same length as the
receiver. -/
theorem claim_C10_copying_variants_leave_receiver_unchanged
    [LinearOrder α] (v : StaticVec α N) :
    (sorted v).2 = v ∧ (sorted v).1.length = v.length ∧
    (sorted_unstable v).2 = v ∧ (sorted_unstable v).1.length = v.length ∧
    (reversed v).2 = v ∧ (reversed v).1.length = v.length :=
  ⟨rfl, rfl, rfl, rfl, rfl, rfl⟩

/-- C10 witness: the frame property at a concrete input. -/
theorem claim_C10_witness :
    (sorted (new_from_slice [3,1,2] : StaticVec ℕ 4)).2 = new_from_slice [3,1,2] ∧
    (sorted (new_from_slice [3,1,2] : StaticVec ℕ 4)).1.length
      = (new_from_slice [3,1,2] : StaticVec ℕ 4).length ∧
    (sorted_unstable (new_from_slice [3,1,2] : StaticVec ℕ 4)).2
      = new_from_slice [3,1,2] ∧
    (sorted_unstable (new_from_slice [3,1,2] : StaticVec ℕ 4)).1.length
      = (new_from_slice [3,1,2] : StaticVec ℕ 4).length ∧
    (reversed (new_from_slice [3,1,2] : StaticVec ℕ 4)).2 = new_from_slice [3,1,2] ∧
    (reversed (new_from_slice [3,1,2] : StaticVec ℕ 4)).1.length
      = (new_from_slice [3,1,2] : StaticVec ℕ 4).length :=
  claim_C10_copying_variants_leave_receiver_unchanged (new_from_slice [3,1,2])

/-!
## C5: push on a non-full and on a full container
-/

/-- C5: `push` requires `length < N`: on a container with `length < N` it writes the
value into slot `length` and increments the length by one, leaving every other slot
unchanged; on a full container (`length = N`) it panics (modelled by `none`) — the
assertion precedes all mutation in the source, so no container state is altered. -/
theorem claim_C5_push_boundary (v : StaticVec α N) (x : α) (hd : v.data.length = N) :
    (v.length < N →
      ∃ v', push v x = some v' ∧ v'.length = v.length + 1 ∧
        slot v' v.length = some x ∧ ∀ i, i ≠ v.length → slot v' i = slot v i) ∧
    (v.length = N → push v x = none) := by
  constructor
  · intro h
    refine ⟨⟨v.data.set v.length (some x), v.length + 1⟩, by simp [push, h], rfl, ?_, ?_⟩
    · rw [slot_set]
      simp [hd, h]
    · intro i hi
      rw [slot_set, if_neg]
      · rfl
      · rintro ⟨h1, -⟩
        exact hi h1.symm
  · intro h
    simp [push, h]

/-- C5 witness: pushing `7` onto a capacity-3 container of length 2 succeeds as
described, and pushing onto a full capacity-3 container is rejected. -/
theorem claim_C5_witness :
    (∃ v', push (new_from_slice [1,2] : StaticVec ℕ 3) 7 = some v' ∧
        v'.length = (new_from_slice [1,2] : StaticVec ℕ 3).length + 1 ∧
        slot v' (new_from_slice [1,2] : StaticVec ℕ 3).length = some 7 ∧
        ∀ i, i ≠ (new_from_slice [1,2] : StaticVec ℕ 3).length →
          slot v' i = slot (new_from_slice [1,2] : StaticVec ℕ 3) i) ∧
    push (filled_with 0 : StaticVec ℕ 3) 9 = none :=
  ⟨(claim_C5_push_boundary (new_from_slice [1,2]) 7 (by decide)).1 (by decide),
   (claim_C5_push_boundary (filled_with 0) 9 (by decide)).2 (by decide)⟩

/-!
## C6: drain bounds checking
-/

/-- C6: `drain` panics (returns `none`; in the source the `assert!` precedes every
mutation, so the container is untouched) exactly when the resolved bounds satisfy
`start > end` or `end > length`; it produces a mutated container only when
`start ≤ end ≤ length`. -/
theorem claim_C6_drain_bounds (v : StaticVec α N) (rstart rend : RBound) :
    drain v rstart rend = none ↔
      (resolveEnd rend v.length < resolveStart rstart ∨
       v.length < resolveEnd rend v.length) := by
  by_cases h : resolveStart rstart ≤ resolveEnd rend v.length ∧
      resolveEnd rend v.length ≤ v.length
  · simp only [drain, h, if_true, and_true]
    constructor
    · intro hc
      exact absurd hc (by simp)
    · intro hc
      omega
  · simp only [drain, h, if_false]
    constructor
    · intro _
      omega
    · intro _
      trivial

/-!
## C7: best-effort bulk fill
-/

lemma extendAdded_eq (len cap : ℕ) (h : len ≤ cap) (olen : ℕ) :
    extendAdded len cap olen = min olen (cap - len) := by
  induction olen with
  | zero =>
    simp only [extendAdded]
    omega
  | succ a ih =>
    simp only [extendAdded]
    split
    · rw [ih]
      omega
    · omega

lemma fromIterLoop_spec (l : List α) : ∀ res : StaticVec α N,
    res.data.length = N → res.length ≤ N →
    (fromIterLoop res l).length = min (res.length + l.length) N ∧
    (fromIterLoop res l).data.length = N ∧
    (∀ i, i < res.length → slot (fromIterLoop res l) i = slot res i) ∧
    (∀ k, res.length + k < min (res.length + l.length) N →
      slot (fromIterLoop res l) (res.length + k) = l[k]?) ∧
    (∀ i, (fromIterLoop res l).length ≤ i → slot (fromIterLoop res l) i = slot res i) := by
  induction l with
  | nil =>
    intro res hd hl
    refine ⟨by simp [fromIterLoop]; omega, hd, fun i _ => rfl, ?_, fun i _ => rfl⟩
    intro k hk
    exact absurd hk (by simp only [List.length_nil]; omega)
  | cons x xs ih =>
    intro res hd hl
    by_cases h : res.length < N
    · have hd' : (push_unchecked res x).data.length = N := by
        simp [push_unchecked, hd]
      have hl' : (push_unchecked res x).length ≤ N := by
        simp only [push_unchecked]
        omega
      obtain ⟨L1, D1, P1, Q1, R1⟩ := ih (push_unchecked res x) hd' hl'
      have hloop : fromIterLoop res (x :: xs) = fromIterLoop (push_unchecked res x) xs := by
        simp [fromIterLoop, h]
      have hpl : (push_unchecked res x).length = res.length + 1 := rfl
      have hslot_old : ∀ i, i ≠ res.length → slot (push_unchecked res x) i = slot res i := by
        intro i hi
        show slot ⟨res.data.set res.length (some x), res.length + 1⟩ i = slot res i
        rw [slot_set, if_neg]
        · rfl
        · rintro ⟨h1, -⟩
          exact hi h1.symm
      have hslot_new : slot (push_unchecked res x) res.length = some x := by
        show slot ⟨res.data.set res.length (some x), res.length + 1⟩ res.length = some x
        rw [slot_set, if_pos ⟨rfl, by omega⟩]
      rw [hloop]
      refine ⟨?_, D1, ?_, ?_, ?_⟩
      · rw [L1, hpl]
        simp only [List.length_cons]
        omega
      · intro i hi
        rw [P1 i (by omega), hslot_old i (by omega)]
      · intro k hk
        rcases k with _ | k
        · rw [Nat.add_zero, P1 res.length (by omega), hslot_new]
          simp
        · have heq : res.length + (k + 1) = (push_unchecked res x).length + k := by
            rw [hpl]; omega
          rw [heq, Q1 k (by rw [hpl]; simp only [List.length_cons] at hk ⊢; omega)]
          simp
      · intro i hi
        rw [R1 i hi, hslot_old i (by rw [L1, hpl] at hi; omega)]
    · have hres : fromIterLoop res (x :: xs) = res := by
        simp [fromIterLoop, h]
      rw [hres]
      refine ⟨by omega, hd, fun i _ => rfl, ?_, fun i _ => rfl⟩
      intro k hk
      exact absurd hk (by omega)

lemma extend_from_slice_spec (v : StaticVec α N) (other : List α)
    (hd : v.data.length = N) (hl : v.length ≤ N) :
    (extend_from_slice v other).length = min (v.length + other.length) N ∧
    (∀ i, i < v.length → slot (extend_from_slice v other) i = slot v i) ∧
    (∀ k, k < min other.length (N - v.length) →
      slot (extend_from_slice v other) (v.length + k) = other[k]?) ∧
    (∀ i, min (v.length + other.length) N ≤ i →
      slot (extend_from_slice v other) i = slot v i) := by
  have hA := extendAdded_eq v.length N hl other.length
  refine ⟨?_, ?_, ?_, ?_⟩
  · show v.length + extendAdded v.length N other.length = _
    rw [hA]
    omega
  · intro i hi
    show slot (⟨_, _⟩ : StaticVec α N) i = slot v i
    rw [slot_ofFn]
    have hiN : i < N := by omega
    simp [hiN, hi]
  · intro k hk
    show slot (⟨_, _⟩ : StaticVec α N) (v.length + k) = other[k]?
    rw [slot_ofFn]
    have h1 : v.length + k < N := by omega
    have h2 : ¬ v.length + k < v.length := by omega
    have h3 : v.length + k < v.length + extendAdded v.length N other.length := by
      rw [hA]; omega
    simp [h1, h2, h3]
  · intro i hi
    by_cases hiN : i < N
    · show slot (⟨_, _⟩ : StaticVec α N) i = slot v i
      rw [slot_ofFn, dif_pos hiN]
      simp only [Fin.val_mk]
      rw [if_neg (by omega), if_neg (by rw [show v.length + extendAdded v.length N
        other.length = min (v.length + other.length) N from by rw [hA]; omega]; omega)]
    · rw [slot_eq_none_of_le _ i (by simp [extend_from_slice]; omega),
        slot_eq_none_of_le v i (by omega)]

/-- C7: bulk fill is best-effort and total (never an error in the model):
`extend_from_slice` appends exactly the first `min(|other|, N − L)` elements of
`other` (so the new length is `min(L + |other|, N)`) and leaves the occupied prefix
unchanged; the from-slice and from-iterator constructors fill exactly the first
`min(source length, N)` elements and set the length accordingly. -/
theorem claim_C7_bulk_fill_best_effort (v : StaticVec α N)
    (other values l : List α) (hd : v.data.length = N) (hl : v.length ≤ N) :
    ((extend_from_slice v other).length = min (v.length + other.length) N ∧
      (∀ i, i < v.length → slot (extend_from_slice v other) i = slot v i) ∧
      (∀ k, k < min other.length (N - v.length) →
        slot (extend_from_slice v other) (v.length + k) = other[k]?)) ∧
    ((new_from_slice values : StaticVec α N).length = min values.length N ∧
      (∀ k, k < min values.length N →
        slot (new_from_slice values : StaticVec α N) k = values[k]?)) ∧
    ((from_iter l : StaticVec α N).length = min l.length N ∧
      (∀ k, k < min l.length N → slot (from_iter l : StaticVec α N) k = l[k]?)) := by
  obtain ⟨E1, E2, E3, -⟩ := extend_from_slice_spec v other hd hl
  refine ⟨⟨E1, E2, E3⟩, ⟨rfl, ?_⟩, ?_⟩
  · intro k hk
    show slot (⟨_, _⟩ : StaticVec α N) k = values[k]?
    rw [slot_ofFn]
    have h1 : k < N := by omega
    simp [h1, hk]
  · obtain ⟨L1, -, -, Q1, -⟩ :=
      fromIterLoop_spec l (new : StaticVec α N) (by simp [new]) (Nat.zero_le _)
    constructor
    · rw [from_iter, L1]
      show min ((0 : ℕ) + l.length) N = _
      omega
    · intro k hk
      have := Q1 k (by show (0 : ℕ) + k < min (0 + l.length) N; omega)
      show slot (fromIterLoop new l) k = l[k]?
      simpa [new] using this

/-!
## C1: the representation invariant holds in every reachable state

One preservation lemma per constructor / operation, then induction over
reachability.
-/

lemma inv_new : Inv (new : StaticVec α N) := by
  refine ⟨by simp [new], Nat.zero_le _, ?_⟩
  intro i hi
  simp [new, slot, List.getD_eq_getElem?_getD, List.getElem?_replicate, hi]

lemma inv_new_from_slice (values : List α) :
    Inv (new_from_slice values : StaticVec α N) := by
  refine ⟨by simp [new_from_slice], by show min values.length N ≤ N; omega, ?_⟩
  intro i hi
  show (slot (⟨_, _⟩ : StaticVec α N) i).isSome ↔ i < min values.length N
  rw [slot_ofFn, dif_pos hi]
  simp only [Fin.val_mk]
  by_cases h : i < min values.length N
  · rw [if_pos h, List.getElem?_eq_getElem (by omega : i < values.length)]
    exact iff_of_true rfl h
  · rw [if_neg h]
    exact iff_of_false (by simp) h

lemma inv_filled_with (x : α) : Inv (filled_with x : StaticVec α N) := by
  refine ⟨by simp [filled_with], le_refl N, ?_⟩
  intro i hi
  show (slot (⟨_, _⟩ : StaticVec α N) i).isSome ↔ i < N
  rw [slot_ofFn, dif_pos hi]
  simp [hi]

lemma inv_from_iter (l : List α) : Inv (from_iter l : StaticVec α N) := by
  obtain ⟨L1, D1, -, Q1, R1⟩ :=
    fromIterLoop_spec l (new : StaticVec α N) (by simp [new]) (Nat.zero_le _)
  have hL : (from_iter l : StaticVec α N).length = min l.length N := by
    rw [from_iter, L1]
    show min ((0 : ℕ) + l.length) N = _
    omega
  refine ⟨D1, by rw [hL]; omega, ?_⟩
  intro i hi
  rw [hL]
  show (slot (fromIterLoop new l) i).isSome ↔ i < min l.length N
  by_cases h : i < min l.length N
  · have := Q1 i (by show (0 : ℕ) + i < min (0 + l.length) N; omega)
    simp only [show (new : StaticVec α N).length = 0 from rfl, Nat.zero_add] at this
    rw [this, List.getElem?_eq_getElem (by omega : i < l.length)]
    exact iff_of_true rfl h
  · have hge : (fromIterLoop (new : StaticVec α N) l).length ≤ i := by
      rw [← from_iter, hL]
      omega
    rw [R1 i hge]
    simp [new, slot, List.getD_eq_getElem?_getD, List.getElem?_replicate, hi, h]

lemma inv_push (v : StaticVec α N) (x : α) (v' : StaticVec α N)
    (hv : Inv v) (h : push v x = some v') : Inv v' := by
  obtain ⟨hd, hl, hs⟩ := hv
  by_cases hlt : v.length < N
  · rw [push, if_pos hlt] at h
    cases h
    refine ⟨by simp [hd], by show v.length + 1 ≤ N; omega, ?_⟩
    intro i hi
    rw [slot_set]
    show _ ↔ i < v.length + 1
    by_cases he : v.length = i
    · rw [if_pos ⟨he, by omega⟩]
      exact iff_of_true rfl (by omega)
    · rw [if_neg (by rintro ⟨h1, -⟩; exact he h1)]
      show (slot v i).isSome ↔ i < v.length + 1
      rw [hs i hi]
      omega
  · rw [push, if_neg hlt] at h
    cases h

lemma inv_pop (v : StaticVec α N) (hv : Inv v) : Inv (pop v).2 := by
  obtain ⟨hd, hl, hs⟩ := hv
  by_cases h : v.length = 0
  · rw [pop, if_pos h]
    exact ⟨hd, hl, hs⟩
  · rw [pop, if_neg h]
    show Inv ⟨v.data.set (v.length - 1) none, v.length - 1⟩
    refine ⟨by simp [hd], by show v.length - 1 ≤ N; omega, ?_⟩
    intro i hi
    rw [slot_set]
    show _ ↔ i < v.length - 1
    by_cases he : v.length - 1 = i
    · rw [if_pos ⟨he, by omega⟩]
      exact iff_of_false (by simp) (by omega)
    · rw [if_neg (by rintro ⟨h1, -⟩; exact he h1)]
      show (slot v i).isSome ↔ i < v.length - 1
      rw [hs i hi]
      omega

lemma inv_insert (v : StaticVec α N) (idx : ℕ) (x : α) (v' : StaticVec α N)
    (hv : Inv v) (h : insert v idx x = some v') : Inv v' := by
  obtain ⟨hd, hl, hs⟩ := hv
  by_cases hc : v.length < N ∧ idx ≤ v.length
  · rw [insert, if_pos hc] at h
    cases h
    refine ⟨by simp, by show v.length + 1 ≤ N; omega, ?_⟩
    intro i hi
    show (slot (⟨_, _⟩ : StaticVec α N) i).isSome ↔ i < v.length + 1
    rw [slot_ofFn, dif_pos hi]
    simp only [Fin.val_mk]
    by_cases h1 : i < idx
    · rw [if_pos h1, hs i hi]
      omega
    · rw [if_neg h1]
      by_cases h2 : i = idx
      · rw [if_pos h2]
        exact iff_of_true rfl (by omega)
      · rw [if_neg h2]
        by_cases h3 : i ≤ v.length
        · rw [if_pos h3, hs (i - 1) (by omega)]
          omega
        · rw [if_neg h3, hs i hi]
          omega
  · rw [insert, if_neg hc] at h
    cases h

lemma inv_remove (v : StaticVec α N) (idx : ℕ) (r : Slot α × StaticVec α N)
    (hv : Inv v) (h : remove v idx = some r) : Inv r.2 := by
  obtain ⟨hd, hl, hs⟩ := hv
  by_cases hc : idx < v.length
  · rw [remove, if_pos hc] at h
    cases h
    refine ⟨by simp, by show v.length - 1 ≤ N; omega, ?_⟩
    intro i hi
    show (slot (⟨_, _⟩ : StaticVec α N) i).isSome ↔ i < v.length - 1
    rw [slot_ofFn, dif_pos hi]
    simp only [Fin.val_mk]
    by_cases h1 : i < idx
    · rw [if_pos h1, hs i hi]
      omega
    · rw [if_neg h1]
      by_cases h2 : i + 1 < v.length
      · rw [if_pos h2, hs (i + 1) (by omega)]
        omega
      · rw [if_neg h2]
        by_cases h3 : i < v.length
        · rw [if_pos h3]
          exact iff_of_false (by simp) (by omega)
        · rw [if_neg h3, hs i hi]
          omega
  · rw [remove, if_neg hc] at h
    cases h

lemma inv_extend_from_slice (v : StaticVec α N) (other : List α) (hv : Inv v) :
    Inv (extend_from_slice v other) := by
  obtain ⟨hd, hl, hs⟩ := hv
  have hA := extendAdded_eq v.length N hl other.length
  refine ⟨by simp [extend_from_slice], ?_, ?_⟩
  · show v.length + extendAdded v.length N other.length ≤ N
    omega
  · intro i hi
    show (slot (⟨_, _⟩ : StaticVec α N) i).isSome ↔
      i < v.length + extendAdded v.length N other.length
    rw [slot_ofFn, dif_pos hi]
    simp only [Fin.val_mk]
    by_cases h1 : i < v.length
    · rw [if_pos h1, hs i hi]
      omega
    · rw [if_neg h1]
      by_cases h2 : i < v.length + extendAdded v.length N other.length
      · rw [if_pos h2,
          List.getElem?_eq_getElem (by omega : i - v.length < other.length)]
        exact iff_of_true rfl (by omega)
      · rw [if_neg h2, hs i hi]
        omega

lemma inv_clear (v : StaticVec α N) (hv : Inv v) : Inv (clear v) := by
  obtain ⟨hd, hl, hs⟩ := hv
  refine ⟨by simp [clear], Nat.zero_le _, ?_⟩
  intro i hi
  show (slot (⟨_, _⟩ : StaticVec α N) i).isSome ↔ i < 0
  rw [slot_ofFn, dif_pos hi]
  simp only [Fin.val_mk]
  by_cases h1 : i < v.length
  · rw [if_pos h1]
    exact iff_of_false (by simp) (by omega)
  · rw [if_neg h1, hs i hi]
    omega

lemma inv_drain (v : StaticVec α N) (b1 b2 : RBound)
    (r : StaticVec α N × StaticVec α N) (hv : Inv v) (h : drain v b1 b2 = some r) :
    Inv r.1 ∧ Inv r.2 := by
  obtain ⟨hd, hl, hs⟩ := hv
  by_cases hc : resolveStart b1 ≤ resolveEnd b2 v.length ∧
      resolveEnd b2 v.length ≤ v.length
  · obtain ⟨hc1, hc2⟩ := hc
    simp only [drain, if_pos (And.intro hc1 hc2)] at h
    cases h
    constructor
    · refine ⟨by simp,
        by show resolveEnd b2 v.length - resolveStart b1 ≤ N; omega, ?_⟩
      intro i hi
      show (slot (⟨_, _⟩ : StaticVec α N) i).isSome ↔
        i < resolveEnd b2 v.length - resolveStart b1
      rw [slot_ofFn, dif_pos hi]
      simp only [Fin.val_mk]
      by_cases h1 : i < resolveEnd b2 v.length - resolveStart b1
      · rw [if_pos h1, hs (resolveStart b1 + i) (by omega)]
        omega
      · rw [if_neg h1]
        exact iff_of_false (by simp) (by omega)
    · refine ⟨by simp,
        by show v.length - (resolveEnd b2 v.length - resolveStart b1) ≤ N; omega, ?_⟩
      intro i hi
      show (slot (⟨_, _⟩ : StaticVec α N) i).isSome ↔
        i < v.length - (resolveEnd b2 v.length - resolveStart b1)
      rw [slot_ofFn, dif_pos hi]
      simp only [Fin.val_mk]
      by_cases h1 : i < resolveStart b1
      · rw [if_pos h1, hs i hi]
        omega
      · rw [if_neg h1]
        by_cases h2 : i < resolveStart b1 + (v.length - resolveEnd b2 v.length)
        · rw [if_pos h2,
            hs (resolveEnd b2 v.length + (i - resolveStart b1)) (by omega)]
          omega
        · rw [if_neg h2]
          by_cases h3 : i < v.length
          · rw [if_pos h3]
            exact iff_of_false (by simp) (by omega)
          · rw [if_neg h3, hs i hi]
            omega
  · simp only [drain, if_neg hc] at h
    exact Option.noConfusion h


/-- C1: every StaticVec reachable from the constructors `new`, `new_from_slice`,
`filled_with`, `from_iter` through any sequence of safe public operations (`push`,
`pop`, `insert`, `remove`, `extend_from_slice`, `drain`, `clear`) satisfies the
invariant: `0 ≤ length ≤ N`, and the slots at indices `[0, length)` are exactly the
live (initialized) ones. -/
theorem claim_C1_reachable_states_satisfy_invariant (v : StaticVec α N)
    (h : Reachable v) : Inv v := by
  induction h with
  | new => exact inv_new
  | new_from_slice values => exact inv_new_from_slice values
  | filled_with x => exact inv_filled_with x
  | from_iter l => exact inv_from_iter l
  | push w x w' _ hp ih => exact inv_push w x w' ih hp
  | pop w _ ih => exact inv_pop w ih
  | insert w i x w' _ hp ih => exact inv_insert w i x w' ih hp
  | remove w i r _ hp ih => exact inv_remove w i r ih hp
  | extend_from_slice w other _ ih => exact inv_extend_from_slice w other ih
  | drain_self w b1 b2 r _ hp ih => exact (inv_drain w b1 b2 r ih hp).2
  | drain_res w b1 b2 r _ hp ih => exact (inv_drain w b1 b2 r ih hp).1
  | clear w _ ih => exact inv_clear w ih

/-- C1 witness: the invariant at a state reached by a concrete sequence of
operations (constructed from a slice, then cleared). -/
theorem claim_C1_witness :
    Inv (clear (new_from_slice [1,2,3] : StaticVec ℕ 4)) :=
  claim_C1_reachable_states_satisfy_invariant _
    (Reachable.clear _ (Reachable.new_from_slice [1,2,3]))

/-- C7 witness: a capacity-4 container of length 2 extended with a 3-element slice
takes exactly the first 2 elements; the from-slice and from-iterator constructors at
capacity 4 truncate a 6-element source to 4 elements. -/
theorem claim_C7_witness :
    (((extend_from_slice (new_from_slice [1,2] : StaticVec ℕ 4) [7,8,9]).length
        = min ((new_from_slice [1,2] : StaticVec ℕ 4).length + [7,8,9].length) 4 ∧
      (∀ i, i < (new_from_slice [1,2] : StaticVec ℕ 4).length →
        slot (extend_from_slice (new_from_slice [1,2] : StaticVec ℕ 4) [7,8,9]) i
          = slot (new_from_slice [1,2] : StaticVec ℕ 4) i) ∧
      (∀ k, k < min ([7,8,9] : List ℕ).length (4 - (new_from_slice [1,2] : StaticVec ℕ 4).length) →
        slot (extend_from_slice (new_from_slice [1,2] : StaticVec ℕ 4) [7,8,9])
            ((new_from_slice [1,2] : StaticVec ℕ 4).length + k) = ([7,8,9] : List ℕ)[k]?)) ∧
    ((new_from_slice [1,2,3,4,5,6] : StaticVec ℕ 4).length
        = min ([1,2,3,4,5,6] : List ℕ).length 4 ∧
      (∀ k, k < min ([1,2,3,4,5,6] : List ℕ).length 4 →
        slot (new_from_slice [1,2,3,4,5,6] : StaticVec ℕ 4) k = ([1,2,3,4,5,6] : List ℕ)[k]?)) ∧
    ((from_iter [1,2,3,4,5,6] : StaticVec ℕ 4).length
        = min ([1,2,3,4,5,6] : List ℕ).length 4 ∧
      (∀ k, k < min ([1,2,3,4,5,6] : List ℕ).length 4 →
        slot (from_iter [1,2,3,4,5,6] : StaticVec ℕ 4) k = ([1,2,3,4,5,6] : List ℕ)[k]?))) :=
  claim_C7_bulk_fill_best_effort (new_from_slice [1,2]) [7,8,9] [1,2,3,4,5,6]
    [1,2,3,4,5,6] (by decide) (by decide)

/-!
## C9: drain of the full range followed by re-extension is the identity
-/

lemma reduceOption_map_some (L : List (Slot α)) (h : ∀ x ∈ L, x.isSome) :
    L.reduceOption.map some = L := by
  induction L with
  | nil => rfl
  | cons a t ih =>
    cases a with
    | none => exact absurd (h none (by simp)) (by simp)
    | some b =>
      rw [List.reduceOption_cons_of_some, List.map_cons,
        ih (fun x hx => h x (by simp [hx]))]

lemma eq_of_slots (v w : StaticVec α N) (hd1 : v.data.length = N)
    (hd2 : w.data.length = N) (hlen : v.length = w.length)
    (hslots : ∀ i, i < N → slot v i = slot w i) : v = w := by
  obtain ⟨d1, l1⟩ := v
  obtain ⟨d2, l2⟩ := w
  simp only at hd1 hd2 hlen
  congr 1
  apply List.ext_getElem?
  intro n
  by_cases hn : n < N
  · have := hslots n hn
    simp only [slot, List.getD_eq_getElem?_getD,
      List.getElem?_eq_getElem (show n < d1.length by omega),
      List.getElem?_eq_getElem (show n < d2.length by omega), Option.getD_some] at this
    rw [List.getElem?_eq_getElem (show n < d1.length by omega),
      List.getElem?_eq_getElem (show n < d2.length by omega), this]
  · rw [List.getElem?_eq_none (by omega), List.getElem?_eq_none (by omega)]

/-- Computation of `drain` over the full range (`..`, both bounds unbounded): the
removed StaticVec is a copy of the occupied area and the source is left empty. -/
lemma drain_unbounded (v : StaticVec α N) :
    drain v .unbounded .unbounded =
      some
        (⟨List.ofFn (fun i : Fin N =>
            if i.val < v.length then slot v i.val else none), v.length⟩,
         ⟨List.ofFn (fun i : Fin N =>
            if i.val < v.length then none else slot v i.val), 0⟩) := by
  simp only [drain, resolveStart, resolveEnd]
  rw [if_pos ⟨Nat.zero_le _, le_refl _⟩]
  simp only [Option.some.injEq, Prod.mk.injEq, StaticVec.mk.injEq]
  refine ⟨⟨?_, by omega⟩, ⟨?_, by omega⟩⟩
  · refine congrArg List.ofFn (funext fun i => ?_)
    simp only [Nat.sub_zero, Nat.zero_add]
  · refine congrArg List.ofFn (funext fun i => ?_)
    simp only [Nat.sub_self, Nat.add_zero, Nat.not_lt_zero, if_false]

/-- C9: for every well-formed StaticVec, draining the full range and then extending
the now-empty source with the drained sequence reproduces the original container —
contents and length — exactly. -/
theorem claim_C9_drain_then_extend_roundtrip (v : StaticVec α N) (hv : Inv v)
    (r : StaticVec α N × StaticVec α N)
    (h : drain v .unbounded .unbounded = some r) :
    extend_from_slice r.2 (as_slice r.1) = v := by
  obtain ⟨hd, hl, hs⟩ := hv
  rw [drain_unbounded] at h
  cases h.symm
  set res : StaticVec α N :=
    ⟨List.ofFn (fun i : Fin N =>
        if i.val < v.length then slot v i.val else none), v.length⟩ with hres
  set rest : StaticVec α N :=
    ⟨List.ofFn (fun i : Fin N =>
        if i.val < v.length then none else slot v i.val), 0⟩ with hrest
  have hres_dlen : res.data.length = N := by
    rw [hres]
    simp
  have hrest_dlen : rest.data.length = N := by
    rw [hrest]
    simp
  have hres_len : res.length = v.length := by rw [hres]
  have hrest_len : rest.length = 0 := by rw [hrest]
  have hslot_res : ∀ i, i < N →
      slot res i = if i < v.length then slot v i else none := by
    intro i hi
    rw [hres, slot_ofFn, dif_pos hi]
  have hslot_rest : ∀ i, i < N →
      slot rest i = if i < v.length then none else slot v i := by
    intro i hi
    rw [hrest, slot_ofFn, dif_pos hi]
  -- every slot the drained copy exposes in `[0, length)` is live
  have hL : (res.data.take res.length).reduceOption.map some
      = res.data.take res.length := by
    apply reduceOption_map_some
    intro x hx
    rw [List.mem_iff_getElem?] at hx
    obtain ⟨k, hk⟩ := hx
    rw [List.getElem?_take] at hk
    by_cases hkr : k < res.length
    · rw [if_pos hkr] at hk
      have hkN : k < N := by omega
      have hx_eq : x = slot res k := by
        rw [slot, List.getD_eq_getElem?_getD, hk]
        rfl
      rw [hx_eq, hslot_res k hkN, if_pos (show k < v.length by omega)]
      exact (hs k hkN).mpr (by omega)
    · rw [if_neg hkr] at hk
      exact Option.noConfusion hk
  -- the drained sequence has the original length
  have hlen_as : (as_slice res).length = v.length := by
    have hcg := congrArg List.length hL
    rw [List.length_map, List.length_take, hres_dlen, hres_len] at hcg
    show (res.data.take res.length).reduceOption.length = v.length
    rw [hcg]
    omega
  -- and reproduces the original live values position by position
  have hother : ∀ k, k < v.length → (as_slice res)[k]? = slot v k := by
    intro k hk
    have hkN : k < N := by omega
    have h1 : ((res.data.take res.length).reduceOption.map some)[k]?
        = (res.data.take res.length)[k]? := by rw [hL]
    rw [List.getElem?_map] at h1
    have h2 : (res.data.take res.length)[k]? = some (slot res k) := by
      rw [List.getElem?_take, if_pos (show k < res.length by omega)]
      rw [slot, List.getD_eq_getElem?_getD,
        List.getElem?_eq_getElem (show k < res.data.length by omega)]
      rfl
    rw [h2, hslot_res k hkN, if_pos hk] at h1
    obtain ⟨y, hy1, hy2⟩ := Option.map_eq_some'.mp h1
    show (res.data.take res.length).reduceOption[k]? = slot v k
    rw [hy1, hy2]
  -- compute the extension of the emptied container via the extend spec
  obtain ⟨E1, -, E3, E4⟩ :=
    extend_from_slice_spec rest (as_slice res) hrest_dlen (by omega)
  show extend_from_slice rest (as_slice res) = v
  apply eq_of_slots
  · simp [extend_from_slice]
  · exact hd
  · rw [E1]
    omega
  · intro i hi
    by_cases h1 : i < v.length
    · have := E3 i (by omega)
      rw [hrest_len, Nat.zero_add] at this
      rw [this, hother i h1]
    · have := E4 i (by omega)
      rw [this, hslot_rest i hi, if_neg h1]

/-- C9 witness: the round-trip at a concrete capacity-3 container holding
`[1,2,3]`. -/
theorem claim_C9_witness :
    extend_from_slice (⟨[none, none, none], 0⟩ : StaticVec ℕ 3)
        (as_slice (⟨[some 1, some 2, some 3], 3⟩ : StaticVec ℕ 3))
      = new_from_slice [1,2,3] :=
  claim_C9_drain_then_extend_roundtrip (new_from_slice [1,2,3]) (by decide)
    (⟨[some 1, some 2, some 3], 3⟩, ⟨[none, none, none], 0⟩) (by decide)

/-!
## C8: the owning iterator's drop glue over arbitrary interleavings
-/

lemma listSlice_self (d : List α) (a : ℕ) : listSlice d a a = [] := by
  simp [listSlice]

lemma listSlice_append (d : List α) (a m b : ℕ) (h1 : a ≤ m) (h2 : m ≤ b) :
    listSlice d a m ++ listSlice d m b = listSlice d a b := by
  unfold listSlice
  rw [show b - a = (m - a) + (b - m) from by omega, List.take_add, List.drop_drop,
    show a + (m - a) = m from by omega]

lemma listSlice_cons [Inhabited α] (d : List α) (a c : ℕ) (hac : a < c)
    (hlen : a < d.length) :
    listSlice d a c = d.getD a default :: listSlice d (a + 1) c := by
  unfold listSlice
  obtain ⟨m, hm⟩ : ∃ m, c - a = m + 1 := ⟨c - a - 1, by omega⟩
  rw [hm, List.drop_eq_getElem_cons hlen, List.take_succ_cons,
    show c - (a + 1) = m from by omega, List.getD_eq_getElem?_getD,
    List.getElem?_eq_getElem hlen]
  rfl

lemma listSlice_snoc [Inhabited α] (d : List α) (a c : ℕ) (hac : a < c)
    (hlen : c - 1 < d.length) :
    listSlice d a c = listSlice d a (c - 1) ++ [d.getD (c - 1) default] := by
  rw [← listSlice_append d a (c - 1) c (by omega) (by omega),
    listSlice_cons d (c - 1) c (by omega) hlen,
    show c - 1 + 1 = c from by omega, listSlice_self]

lemma runOps_spec [Inhabited α] (ops : List Dir) : ∀ it : IntoIter α N,
    it.start ≤ it.stop → it.stop ≤ it.data.length →
    (runOps it ops).2.2.data = it.data ∧
    it.start ≤ (runOps it ops).2.2.start ∧
    (runOps it ops).2.2.start ≤ (runOps it ops).2.2.stop ∧
    (runOps it ops).2.2.stop ≤ it.stop ∧
    (runOps it ops).1 = listSlice it.data it.start (runOps it ops).2.2.start ∧
    (runOps it ops).2.1.reverse = listSlice it.data (runOps it ops).2.2.stop it.stop := by
  induction ops with
  | nil =>
    intro it h1 h2
    refine ⟨rfl, le_refl _, h1, le_refl _, ?_, ?_⟩
    · rw [runOps, listSlice_self]
    · rw [runOps, listSlice_self]
      rfl
  | cons d rest ih =>
    intro it h1 h2
    cases d with
    | fwd =>
      by_cases hne : it.start < it.stop
      · obtain ⟨m, hm⟩ : ∃ m, it.stop - it.start = m + 1 :=
          ⟨it.stop - it.start - 1, by omega⟩
        have hnext : it.next =
            (some (it.data.getD it.start default),
             ({ it with start := it.start + 1 } : IntoIter α N)) := by
          rw [IntoIter.next, hm]
        obtain ⟨D1, B1, B2, B3, F1, K1⟩ :=
          ih ({ it with start := it.start + 1 } : IntoIter α N)
            (by dsimp only; omega) (by dsimp only; exact h2)
        dsimp only at D1 B1 B2 B3 F1 K1
        have hrun : runOps it (Dir.fwd :: rest) =
            (it.data.getD it.start default ::
              (runOps ({ it with start := it.start + 1 } : IntoIter α N) rest).1,
             (runOps ({ it with start := it.start + 1 } : IntoIter α N) rest).2.1,
             (runOps ({ it with start := it.start + 1 } : IntoIter α N) rest).2.2) := by
          rw [runOps, hnext]
          rfl
        rw [hrun]
        dsimp only
        refine ⟨D1, by omega, B2, by omega, ?_, K1⟩
        rw [F1, listSlice_cons it.data it.start
          (runOps ({ it with start := it.start + 1 } : IntoIter α N) rest).2.2.start
          (by omega) (by omega)]
      · have hz : it.stop - it.start = 0 := by omega
        have hnext : it.next = (none, it) := by
          rw [IntoIter.next, hz]
        obtain ⟨D1, B1, B2, B3, F1, K1⟩ := ih it h1 h2
        have hrun : runOps it (Dir.fwd :: rest) = runOps it rest := by
          rw [runOps, hnext]
          rfl
        rw [hrun]
        exact ⟨D1, B1, B2, B3, F1, K1⟩
    | bwd =>
      by_cases hne : it.start < it.stop
      · obtain ⟨m, hm⟩ : ∃ m, it.stop - it.start = m + 1 :=
          ⟨it.stop - it.start - 1, by omega⟩
        have hnext : it.nextBack =
            (some (it.data.getD (it.stop - 1) default),
             ({ it with stop := it.stop - 1 } : IntoIter α N)) := by
          rw [IntoIter.nextBack, hm]
        obtain ⟨D1, B1, B2, B3, F1, K1⟩ :=
          ih ({ it with stop := it.stop - 1 } : IntoIter α N)
            (by dsimp only; omega) (by dsimp only; omega)
        dsimp only at D1 B1 B2 B3 F1 K1
        have hrun : runOps it (Dir.bwd :: rest) =
            ((runOps ({ it with stop := it.stop - 1 } : IntoIter α N) rest).1,
             it.data.getD (it.stop - 1) default ::
               (runOps ({ it with stop := it.stop - 1 } : IntoIter α N) rest).2.1,
             (runOps ({ it with stop := it.stop - 1 } : IntoIter α N) rest).2.2) := by
          rw [runOps, hnext]
          rfl
        rw [hrun]
        dsimp only
        refine ⟨D1, B1, B2, by omega, F1, ?_⟩
        rw [List.reverse_cons, K1, listSlice_snoc it.data
          (runOps ({ it with stop := it.stop - 1 } : IntoIter α N) rest).2.2.stop
          it.stop (by omega) (by omega)]
      · have hz : it.stop - it.start = 0 := by omega
        have hnext : it.nextBack = (none, it) := by
          rw [IntoIter.nextBack, hz]
        obtain ⟨D1, B1, B2, B3, F1, K1⟩ := ih it h1 h2
        have hrun : runOps it (Dir.bwd :: rest) = runOps it rest := by
          rw [runOps, hnext]
          rfl
        rw [hrun]
        exact ⟨D1, B1, B2, B3, F1, K1⟩


/-- C8: for every owning-iterator state with `start ≤ end` within the backing array
and every interleaving of `next` / `next_back` calls, the forward-yielded elements,
the elements dropped by the `Drop` glue at the final state, and the backward-yielded
elements (in index order) concatenate to exactly the elements of `[start, end)`:
every element of the owned range is either yielded once or dropped once — none is
leaked, none is dropped twice, and nothing outside the range is touched. -/
theorem claim_C8_intoiter_drop_each_unyielded_exactly_once [Inhabited α]
    (it : IntoIter α N) (ops : List Dir)
    (h1 : it.start ≤ it.stop) (h2 : it.stop ≤ it.data.length) :
    (runOps it ops).1 ++ (runOps it ops).2.2.droppedOnDrop
        ++ (runOps it ops).2.1.reverse
      = listSlice it.data it.start it.stop := by
  obtain ⟨D1, B1, B2, B3, F1, K1⟩ := runOps_spec ops it h1 h2
  have hdrop : (runOps it ops).2.2.droppedOnDrop
      = listSlice it.data (runOps it ops).2.2.start (runOps it ops).2.2.stop := by
    rw [IntoIter.droppedOnDrop, listSlice, D1]
  rw [F1, hdrop, K1,
    listSlice_append it.data it.start _ _ B1 B2,
    listSlice_append it.data it.start _ it.stop (by omega) B3]

/-- C8 witness: a five-slot owning iterator over the range `[0, 4)`, after one `next`
and one `next_back`: the forward yield `[1]`, the drop-glue's drops `[2, 3]` and the
backward yield `[4]` partition the owned range `[1, 2, 3, 4]`. -/
theorem claim_C8_witness :
    (runOps (⟨0, 4, [1, 2, 3, 4, 5]⟩ : IntoIter ℕ 5) [Dir.fwd, Dir.bwd]).1
        ++ (runOps (⟨0, 4, [1, 2, 3, 4, 5]⟩ : IntoIter ℕ 5)
            [Dir.fwd, Dir.bwd]).2.2.droppedOnDrop
        ++ (runOps (⟨0, 4, [1, 2, 3, 4, 5]⟩ : IntoIter ℕ 5)
            [Dir.fwd, Dir.bwd]).2.1.reverse
      = listSlice [1, 2, 3, 4, 5] 0 4 :=
  claim_C8_intoiter_drop_each_unyielded_exactly_once
    (⟨0, 4, [1, 2, 3, 4, 5]⟩ : IntoIter ℕ 5) [Dir.fwd, Dir.bwd]
    (by decide) (by decide)

/-!
## C4: the drain iterator's drop glue
-/

lemma Drain_dropImpl_fst (d : Drain α N) :
    d.dropImpl.1
      = (List.range (d.iterHi - d.iterLo)).map (fun k => slot d.vec (d.iterLo + k)) := by
  simp only [Drain.dropImpl]
  split <;> rfl

lemma Drain_dropImpl_snd_pos (d : Drain α N) (h : 0 < d.length) :
    d.dropImpl.2 =
      ⟨List.ofFn (fun i : Fin N =>
          if i.val < d.vec.length then slot d.vec i.val
          else if i.val < d.vec.length + d.length then
            slot d.vec (d.start + (i.val - d.vec.length))
          else if i.val < d.start + d.length then none
          else slot d.vec i.val),
        d.vec.length + d.length⟩ := by
  simp only [Drain.dropImpl]
  rw [if_pos h]

lemma Drain_dropImpl_snd_zero (d : Drain α N) (h : d.length = 0) :
    d.dropImpl.2 = d.vec := by
  simp only [Drain.dropImpl]
  rw [if_neg (by omega)]

/-- `Drain.next` leaves the tail bookkeeping (`start`, `length`) and the borrowed vec
untouched, and moves only the low cursor, keeping `iterLo ≤ iterHi`. -/
lemma Drain_next_cursor (d : Drain α N) (h : d.iterLo ≤ d.iterHi) :
    d.next.2.start = d.start ∧ d.next.2.length = d.length ∧ d.next.2.vec = d.vec ∧
    d.iterLo ≤ d.next.2.iterLo ∧ d.next.2.iterLo ≤ d.next.2.iterHi ∧
    d.next.2.iterHi = d.iterHi := by
  rw [Drain.next]
  split
  · exact ⟨rfl, rfl, rfl, by dsimp only; omega, by dsimp only; omega, rfl⟩
  · exact ⟨rfl, rfl, rfl, le_refl _, h, rfl⟩

/-- `Drain.nextBack` likewise moves only the high cursor. -/
lemma Drain_nextBack_cursor (d : Drain α N) (h : d.iterLo ≤ d.iterHi) :
    d.nextBack.2.start = d.start ∧ d.nextBack.2.length = d.length ∧
    d.nextBack.2.vec = d.vec ∧
    d.nextBack.2.iterLo = d.iterLo ∧ d.nextBack.2.iterLo ≤ d.nextBack.2.iterHi ∧
    d.nextBack.2.iterHi ≤ d.iterHi := by
  rw [Drain.nextBack]
  split
  · exact ⟨rfl, rfl, rfl, rfl, by dsimp only; omega, by dsimp only; omega⟩
  · exact ⟨rfl, rfl, rfl, rfl, h, le_refl _⟩

lemma map_range_slot_eq_listSlice (v : StaticVec α N) (lo hi : ℕ)
    (hhi : hi ≤ v.data.length) :
    (List.range (hi - lo)).map (fun k => slot v (lo + k)) = listSlice v.data lo hi := by
  apply List.ext_getElem?
  intro n
  rw [List.getElem?_map]
  by_cases hn : n < hi - lo
  · rw [List.getElem?_range hn, listSlice, List.getElem?_take, if_pos hn,
      List.getElem?_drop]
    have hlt : lo + n < v.data.length := by omega
    rw [List.getElem?_eq_getElem hlt, Option.map_some']
    congr 1
    rw [slot, List.getD_eq_getElem?_getD, List.getElem?_eq_getElem hlt]
    rfl
  · rw [List.getElem?_eq_none
      (show (List.range (hi - lo)).length ≤ n by rw [List.length_range]; omega),
      listSlice, List.getElem?_take, if_neg hn]
    rfl

/-- C4: dropping a `StaticVecDrain` over the removed range `[a, b)` of a container of
original length `L ≤ N` — with the cursor at `[lo, hi) ⊆ [a, b)`, covering full,
partial and zero prior consumption — drops exactly the un-yielded elements of the
removed range (the slots `[lo, hi)`), relocates the tail (the elements originally at
`[b, L)`) to sit immediately after the head at `a`, and restores the container's
length to `L − (b − a)`.  The drain state is the one `drain_iter` sets up: `start`
(tail start) `= b`, `length` (tail length) `= L − b`, vec length truncated to `a`. -/
theorem claim_C4_drain_drop_finalizes (v : StaticVec α N) (a b lo hi : ℕ)
    (hd : v.data.length = N) (hlen : v.length ≤ N) (hab : a ≤ b) (hbl : b ≤ v.length)
    (hlo : a ≤ lo) (hlohi : lo ≤ hi) (hhib : hi ≤ b) :
    (Drain.dropImpl (⟨b, v.length - b, lo, hi, ⟨v.data, a⟩⟩ : Drain α N)).1
        = listSlice v.data lo hi ∧
    (Drain.dropImpl (⟨b, v.length - b, lo, hi, ⟨v.data, a⟩⟩ : Drain α N)).2.length
        = v.length - (b - a) ∧
    (∀ i, i < a →
      slot (Drain.dropImpl (⟨b, v.length - b, lo, hi, ⟨v.data, a⟩⟩ : Drain α N)).2 i
        = slot v i) ∧
    (∀ k, k < v.length - b →
      slot (Drain.dropImpl (⟨b, v.length - b, lo, hi, ⟨v.data, a⟩⟩ : Drain α N)).2
          (a + k)
        = slot v (b + k)) := by
  constructor
  · rw [Drain_dropImpl_fst]
    dsimp only
    exact map_range_slot_eq_listSlice v lo hi (by omega)
  by_cases h : 0 < v.length - b
  · have hfinal := Drain_dropImpl_snd_pos
      (⟨b, v.length - b, lo, hi, ⟨v.data, a⟩⟩ : Drain α N) (by dsimp only; omega)
    dsimp only at hfinal
    refine ⟨?_, ?_, ?_⟩
    · rw [hfinal]
      show a + (v.length - b) = v.length - (b - a)
      omega
    · intro i hi2
      rw [hfinal, slot_ofFn, dif_pos (show i < N by omega)]
      simp only [Fin.val_mk]
      rw [if_pos hi2]
      rfl
    · intro k hk
      rw [hfinal, slot_ofFn, dif_pos (show a + k < N by omega)]
      simp only [Fin.val_mk]
      rw [if_neg (by omega), if_pos (by omega), Nat.add_sub_cancel_left]
      rfl
  · have hz : v.length - b = 0 := by omega
    have hfinal := Drain_dropImpl_snd_zero
      (⟨b, v.length - b, lo, hi, ⟨v.data, a⟩⟩ : Drain α N) (by dsimp only; omega)
    dsimp only at hfinal
    refine ⟨?_, ?_, ?_⟩
    · rw [hfinal]
      show a = v.length - (b - a)
      omega
    · intro i hi2
      rw [hfinal]
      rfl
    · intro k hk
      omega

/-- C4 witness: dropping an unconsumed drain over `[1, 4)` of the 5-element
container `[1,2,3,4,5]` drops `[2,3,4]` and leaves the container with length 2 and
the original first and last elements (`1` at slot 0, `5` at slot 1). -/
theorem claim_C4_witness :
    ((Drain.dropImpl (⟨4, (new_from_slice [1,2,3,4,5] : StaticVec ℕ 5).length - 4,
          1, 4, ⟨(new_from_slice [1,2,3,4,5] : StaticVec ℕ 5).data, 1⟩⟩ : Drain ℕ 5)).1
        = listSlice (new_from_slice [1,2,3,4,5] : StaticVec ℕ 5).data 1 4 ∧
      (Drain.dropImpl (⟨4, (new_from_slice [1,2,3,4,5] : StaticVec ℕ 5).length - 4,
          1, 4, ⟨(new_from_slice [1,2,3,4,5] : StaticVec ℕ 5).data, 1⟩⟩ : Drain ℕ 5)).2.length
        = (new_from_slice [1,2,3,4,5] : StaticVec ℕ 5).length - (4 - 1) ∧
      (∀ i, i < 1 →
        slot (Drain.dropImpl (⟨4, (new_from_slice [1,2,3,4,5] : StaticVec ℕ 5).length - 4,
            1, 4, ⟨(new_from_slice [1,2,3,4,5] : StaticVec ℕ 5).data, 1⟩⟩ : Drain ℕ 5)).2 i
          = slot (new_from_slice [1,2,3,4,5] : StaticVec ℕ 5) i) ∧
      (∀ k, k < (new_from_slice [1,2,3,4,5] : StaticVec ℕ 5).length - 4 →
        slot (Drain.dropImpl (⟨4, (new_from_slice [1,2,3,4,5] : StaticVec ℕ 5).length - 4,
            1, 4, ⟨(new_from_slice [1,2,3,4,5] : StaticVec ℕ 5).data, 1⟩⟩ : Drain ℕ 5)).2 (1 + k)
          = slot (new_from_slice [1,2,3,4,5] : StaticVec ℕ 5) (4 + k))) ∧
    drain_iter (new_from_slice [1,2,3,4,5] : StaticVec ℕ 5) 1 4
      = some ⟨4, 1, 1, 4, ⟨(new_from_slice [1,2,3,4,5] : StaticVec ℕ 5).data, 1⟩⟩ :=
  ⟨claim_C4_drain_drop_finalizes (new_from_slice [1,2,3,4,5]) 1 4 1 4
      (by decide) (by decide) (by decide) (by decide) (by decide) (by decide) (by decide),
   by decide⟩

end StaticVecModel
